import Mathlib

/-!
Verification of `scopweb/mcp-filesystem-server-ultra` against its
natural-language specification.

The repository's Go source under scrutiny is `main.go` (configuration glue:
`Configuration`, `DefaultConfiguration`, `main`'s flag handling, `parseSize`)
together with the README documenting the command-line contract.  The engine
components the spec describes (PathGuard, IntelligentCache, TaskScheduler,
SafeWriter) are not present in the repository source; where a claim concerns
them, the corresponding definitions below are modelled from the spec's own
words and are marked as such in their doc comments.

Go strings are embedded as `List Char`; Go `int64` arithmetic is embedded as
`Int` with explicit two's-complement wrapping (`int64Wrap`).
-/

namespace FsUltra

/-! ## Definitions: the embedding of main.go and the spec-modelled engine components -/

/-- Go `unicode.IsSpace` restricted to the Latin-1 range, which is what
`strings.TrimSpace` consults for the inputs at issue: `\t \n \v \f \r`,
space, NEL (U+0085) and NBSP (U+00A0), compared by code point as Go
compares runes. -/
def goIsSpace (c : Char) : Bool :=
  c.toNat = 32 || c.toNat = 9 || c.toNat = 10 || c.toNat = 11 ||
  c.toNat = 12 || c.toNat = 13 || c.toNat = 133 || c.toNat = 160

/-- Go `strings.TrimSpace` on a rune list: drop leading and trailing
whitespace. -/
def goTrimSpace (s : List Char) : List Char :=
  ((s.dropWhile goIsSpace).reverse.dropWhile goIsSpace).reverse

/-- Go `unicode.ToUpper` for the ASCII letters (the only case-mapped runes
appearing in size strings): code points 97-122 shift down by 32. -/
def goToUpperChar (c : Char) : Char :=
  if 97 ≤ c.toNat ∧ c.toNat ≤ 122 then Char.ofNat (c.toNat - 32) else c

/-- Go `strings.ToUpper` on a rune list. -/
def goToUpper (s : List Char) : List Char := s.map goToUpperChar

/-- Go `strings.HasSuffix(s, suffix)`, which is
`len(s) >= len(suffix) && s[len(s)-len(suffix):] == suffix`. -/
def goHasSuf (s suf : List Char) : Bool :=
  s.drop (s.length - suf.length) == suf

/-- Go `strings.TrimSuffix` under the assumption the suffix is present:
keep everything but the last `suf.length` runes. -/
def goDropSuf (s suf : List Char) : List Char := s.take (s.length - suf.length)

/-- Decimal digit test by code point (`'0'` is 48, `'9'` is 57). -/
def isDigitChar (c : Char) : Bool := 48 ≤ c.toNat && c.toNat ≤ 57

/-- Value of a decimal digit string (`strconv`'s accumulation loop). -/
def digitsToNat (s : List Char) : Nat :=
  s.foldl (fun acc c => 10 * acc + (c.toNat - '0'.toNat)) 0

/-- Go `strconv.ParseInt(s, 10, 64)`: optional leading sign, then a
non-empty run of decimal digits; the value must fit a signed 64-bit integer,
otherwise the call reports `ErrRange` (an error to the caller). -/
def parseInt64 (s : List Char) : Option Int :=
  let sign : Int := if s.head? = some '-' then -1 else 1
  let rest := if s.head? = some '-' ∨ s.head? = some '+' then s.tail else s
  if rest ≠ [] ∧ rest.all isDigitChar = true then
    let v : Int := sign * (digitsToNat rest : Int)
    if -(2 ^ 63) ≤ v ∧ v < 2 ^ 63 then some v else none
  else none

/-- Two's-complement wrap of an integer into the signed 64-bit range, the
semantics of Go's `int64` multiplication. -/
def int64Wrap (x : Int) : Int := (x + 2 ^ 63) % 2 ^ 64 - 2 ^ 63

def kbChars : List Char := ['K', 'B']

def mbChars : List Char := ['M', 'B']

def gbChars : List Char := ['G', 'B']

/-- The suffix-stripping cascade of `parseSize` (main.go lines 168-178):
returns the multiplier and the remaining string. -/
def stripSizeSuf (s : List Char) : Int × List Char :=
  if goHasSuf s kbChars then (1024, goDropSuf s kbChars)
  else if goHasSuf s mbChars then (1024 * 1024, goDropSuf s mbChars)
  else if goHasSuf s gbChars then (1024 * 1024 * 1024, goDropSuf s gbChars)
  else (1, s)

/-- `parseSize` (main.go lines 164-186): trim whitespace, uppercase, strip a
`KB`/`MB`/`GB` suffix, parse the rest as a signed 64-bit decimal integer and
return it times the multiplier (with Go `int64` wrap-around on the product).
`none` models the error return. -/
def parseSize (raw : List Char) : Option Int :=
  let s := goToUpper (goTrimSpace raw)
  let ms := stripSizeSuf s
  (parseInt64 ms.2).map (fun n => int64Wrap (n * ms.1))

/-- The size suffixes `parseSize` understands, in every letter case, with
the multiplier each one selects. -/
def sizeSufVariants : List (List Char × Int) :=
  [([], 1),
   (['K', 'B'], 1024), (['K', 'b'], 1024), (['k', 'B'], 1024), (['k', 'b'], 1024),
   (['M', 'B'], 1024 * 1024), (['M', 'b'], 1024 * 1024),
   (['m', 'B'], 1024 * 1024), (['m', 'b'], 1024 * 1024),
   (['G', 'B'], 1024 * 1024 * 1024), (['G', 'b'], 1024 * 1024 * 1024),
   (['g', 'B'], 1024 * 1024 * 1024), (['g', 'b'], 1024 * 1024 * 1024)]

/-- `Configuration` (main.go lines 20-27).  Note: it has no
allowed-directories field of any kind. -/
structure Configuration where
  CacheSize : Int
  ParallelOps : Int
  BinaryThreshold : Int
  VSCodeAPIEnabled : Bool
  DebugMode : Bool
  LogLevel : List Char
deriving DecidableEq, Repr

/-- `DefaultConfiguration` (main.go lines 29-46), parameterised by the CPU
count `runtime.NumCPU()` reports. -/
def DefaultConfiguration (cpuCount : Int) : Configuration :=
  let parallelOps := cpuCount * 2
  let parallelOps := if parallelOps > 16 then 16 else parallelOps
  { CacheSize := 100 * 1024 * 1024
    ParallelOps := parallelOps
    BinaryThreshold := 1024 * 1024
    VSCodeAPIEnabled := true
    DebugMode := false
    LogLevel := "info".toList }

/-- The flag names `main` registers (main.go lines 52-61).  `flag.Parse`
rejects any argument naming a flag outside this list. -/
def mainFlagNames : List (List Char) :=
  ["cache-size", "parallel-ops", "binary-threshold", "vscode-api",
   "debug", "log-level", "version", "bench"].map String.toList

/-- The configuration-assignment path of `main` (main.go lines 72-89):
parse the cache-size and binary-threshold flags, dying (`none`) exactly when
`parseSize` errors, and otherwise store whatever values were produced — no
sign or magnitude check of any kind. -/
def mainApplyFlags (cacheSizeFlag binaryThresholdFlag : List Char)
    (parallelOpsFlag : Int) (vsCodeAPIFlag debugFlag : Bool)
    (logLevelFlag : List Char) (config : Configuration) : Option Configuration :=
  match parseSize cacheSizeFlag with
  | none => none
  | some size =>
    match parseSize binaryThresholdFlag with
    | none => none
    | some threshold =>
      some { config with
              CacheSize := size
              BinaryThreshold := threshold
              ParallelOps := parallelOpsFlag
              VSCodeAPIEnabled := vsCodeAPIFlag
              DebugMode := debugFlag
              LogLevel := logLevelFlag }

/-- Modelled from the spec: the `IntelligentCache` component (spec §4.3) is
absent from the repository source.  A cache entry owns an identity, its
size in bytes, a hot score, and a pinned flag (true while a write is in
flight). -/
structure CacheEntry where
  id : Nat
  size : Nat
  score : Nat
  pinned : Bool
deriving DecidableEq, Repr

/-- Modelled from the spec: process-wide cache state (spec §3 `CacheState`):
the live entries, kept in ascending hot-score order, and the capacity
budget in bytes. -/
structure CacheState where
  entries : List CacheEntry
  capacity : Nat
deriving DecidableEq, Repr

def sumSizes (es : List CacheEntry) : Nat := (es.map (fun e => e.size)).sum

def totalBytes (s : CacheState) : Nat := sumSizes s.entries

/-- The spec's cache invariant: resident bytes never exceed the capacity
budget. -/
def cacheInv (s : CacheState) : Prop := totalBytes s ≤ s.capacity

/-- Quiescence between operations: no write is in flight, so no entry is
pinned. -/
def noPinned (s : CacheState) : Prop := ∀ e ∈ s.entries, e.pinned = false

/-- Modelled from the spec: eviction walks entries in ascending hot-score
order, removing entries until the resident total fits the budget `need`;
a pinned entry is never evicted (spec §4.3). -/
def evictAsc (need : Nat) : List CacheEntry → List CacheEntry
  | [] => []
  | e :: rest =>
    if sumSizes (e :: rest) ≤ need then e :: rest
    else if e.pinned then e :: evictAsc (need - e.size) rest
    else evictAsc need rest

/-- Insertion keeping the ascending hot-score order. -/
def insertByScore (e : CacheEntry) : List CacheEntry → List CacheEntry
  | [] => [e]
  | x :: xs => if e.score ≤ x.score then e :: x :: xs else x :: insertByScore e xs

/-- Modelled from the spec: `put` (spec §4.3): a single entry larger than
the whole capacity is never cached (bypass, no insertion); otherwise entries
are evicted in ascending score order until the new entry fits, and it is
inserted — insert-then-evict is one atomic step. -/
def put (s : CacheState) (e : CacheEntry) : CacheState :=
  if s.capacity < e.size then s
  else { s with
          entries := insertByScore e (evictAsc (s.capacity - e.size) s.entries) }

/-- Modelled from the spec: `invalidate` removes the entry of an identity
regardless of score, idempotently (spec §4.3). -/
def invalidate (s : CacheState) (i : Nat) : CacheState :=
  { s with entries := s.entries.filter (fun e => e.id ≠ i) }

/-- Modelled from the spec: `get` re-stats the file; when the stat shows a
changed identity the stale entry is invalidated and the lookup is a miss
(spec §4.3). -/
def cacheGet (s : CacheState) (i : Nat) (stale : Bool) :
    Option CacheEntry × CacheState :=
  match s.entries.find? (fun e => e.id = i) with
  | none => (none, s)
  | some e => if stale then (none, invalidate s i) else (some e, s)

/-- Modelled from the spec: the `PathGuard` component (spec §4.1) is absent
from the repository source.  A path is the segment list of an absolute,
symlink-expanded path; canonicalization resolves `.`/empty and `..`
segments (clamped at the root). -/
def canonicalize (p : List String) : List String :=
  p.foldl (fun acc seg =>
    if seg = "." ∨ seg = "" then acc
    else if seg = ".." then acc.dropLast
    else acc ++ [seg]) []

inductive PathErr where
  | AccessDenied
  | NotFound
deriving DecidableEq, Repr

/-- Separator-aware descendant test: the allowed directory's segment list
is a prefix of the canonical path's segment list. -/
def isWithin (dir p : List String) : Bool := dir.isPrefixOf p

/-- Modelled from the spec: `resolve` canonicalizes the raw path, then
requires the canonical path to be a descendant of one of the configured
allowed directories, failing with `AccessDenied` on escape; it is a pure
function with no side effects. -/
def resolve (allowed : List (List String)) (p : List String) :
    Except PathErr (List String) :=
  let c := canonicalize p
  if allowed.any (fun a => isWithin a c) then .ok c else .error .AccessDenied

/-- Modelled from the spec: the `SafeWriter` component (spec §4.6) is
absent from the repository source.  The filesystem and cache state the
protocol touches for one target path: the target file's content, its
temporary sibling, the backup location, and the target entry's pin and
liveness bits. -/
structure WriteFs where
  orig : Option (List Nat)
  temp : Option (List Nat)
  backup : Option (List Nat)
  cachePinned : Bool
  cacheLive : Bool
deriving DecidableEq, Repr

/-- Modelled from the spec: one numbered step of the `writeSafe` protocol
(spec §4.6): (1) pin the cache entry, (2) write the temporary sibling,
(3) optionally copy the existing file to the backup location, (4) atomically
rename the temporary over the target, (5) invalidate the cache entry,
(6) unpin. -/
def writeStep (backup : Bool) (content : List Nat) (k : Nat) (st : WriteFs) :
    WriteFs :=
  if k = 1 then { st with cachePinned := true }
  else if k = 2 then { st with temp := some content }
  else if k = 3 then (if backup then { st with backup := st.orig } else st)
  else if k = 4 then { st with orig := st.temp, temp := none }
  else if k = 5 then { st with cacheLive := false }
  else if k = 6 then { st with cachePinned := false }
  else st

/-- Error cleanup on a failed step: the temporary file is discarded and the
pin released; the backup, if already created, is retained. -/
def discardTemp (st : WriteFs) : WriteFs :=
  { st with temp := none, cachePinned := false }

/-- Modelled from the spec: run the listed `writeSafe` protocol steps in
order.  The in-memory steps (1, 5, 6) cannot fail; a filesystem step
named by `failAt` — the backup copy (3) or the rename (4) — fails there,
aborting with an error result after cleanup. -/
def runWriteSafe (backup : Bool) (content : List Nat) (failAt : Option Nat) :
    List Nat → WriteFs → Bool × WriteFs
  | [], st => (true, st)
  | k :: ks, st =>
    if failAt = some k then (false, discardTemp st)
    else runWriteSafe backup content failAt ks (writeStep backup content k st)

/-- Modelled from the spec: `writeSafe(path, content, backup)` as the
six-step protocol of spec §4.6, with an optional injected failure point.
The `Bool` result is `true` on success, `false` when an error is returned
to the caller. -/
def writeSafe (st : WriteFs) (content : List Nat) (backup : Bool)
    (failAt : Option Nat) : Bool × WriteFs :=
  runWriteSafe backup content failAt [1, 2, 3, 4, 5, 6] st

/-- Modelled from the spec: the state after the first `t` steps of a
failure-free `writeSafe`; a concurrent read started before the rename
observes the state at some such `t` (spec §5: visibility changes only at
the atomic rename). -/
def stateAfter (st : WriteFs) (backup : Bool) (content : List Nat) :
    Nat → WriteFs
  | 0 => st
  | t + 1 => writeStep backup content (t + 1) (stateAfter st backup content t)

/-- A read of the target observes the file's current content (the cache,
while live, holds the identical full bytes). -/
def readTarget (st : WriteFs) : Option (List Nat) := st.orig

/-- Modelled from the spec: the `TaskScheduler` component (spec §4.4) is
absent from the repository source.  Its admission configuration: the worker
pool size `ParallelOps` and the bounded queue length. -/
structure SchedCfg where
  parallelOps : Nat
  queueBound : Nat
deriving DecidableEq, Repr

/-- The scheduler's admission counters: tasks running on workers and tasks
waiting in the bounded queue. -/
structure SchedState where
  running : Nat
  queued : Nat
deriving DecidableEq, Repr

inductive SubmitOutcome where
  | accepted
  | overloaded
deriving DecidableEq, Repr

/-- Modelled from the spec: `submit` hands the task to an idle worker if
one exists, else queues it while the bounded queue has room, else fails
fast with `Overloaded` (spec §4.4 backpressure contract). -/
def submit (cfg : SchedCfg) (s : SchedState) : SubmitOutcome × SchedState :=
  if s.running < cfg.parallelOps then
    (.accepted, { s with running := s.running + 1 })
  else if s.queued < cfg.queueBound then
    (.accepted, { s with queued := s.queued + 1 })
  else (.overloaded, s)

def pending (s : SchedState) : Nat := s.running + s.queued

/-- Submit `n` tasks in sequence with no intervening completions (workers
stay saturated); returns how many submissions were rejected `Overloaded`,
and the final admission state. -/
def submitN (cfg : SchedCfg) : Nat → SchedState → Nat × SchedState
  | 0, s => (0, s)
  | n + 1, s =>
    let r := submit cfg s
    let rest := submitN cfg n r.2
    ((if r.1 = .overloaded then 1 else 0) + rest.1, rest.2)

/-! ## Lemmas and claim theorems -/

lemma goIsSpace_of_digit {c : Char} (h : isDigitChar c = true) :
    goIsSpace c = false := by
  simp only [isDigitChar, Bool.and_eq_true, decide_eq_true_eq] at h
  simp only [goIsSpace, Bool.or_eq_false_iff, decide_eq_false_iff_not]
  omega

lemma ne_dash_of_digit {c : Char} (h : isDigitChar c = true) : c ≠ '-' := by
  simp only [isDigitChar, Bool.and_eq_true, decide_eq_true_eq] at h
  rintro rfl; revert h; decide

lemma ne_plus_of_digit {c : Char} (h : isDigitChar c = true) : c ≠ '+' := by
  simp only [isDigitChar, Bool.and_eq_true, decide_eq_true_eq] at h
  rintro rfl; revert h; decide

lemma goToUpperChar_digit {c : Char} (h : isDigitChar c = true) :
    goToUpperChar c = c := by
  simp only [isDigitChar, Bool.and_eq_true, decide_eq_true_eq] at h
  unfold goToUpperChar
  rw [if_neg]; omega

lemma goToUpper_digits {l : List Char} (h : l.all isDigitChar = true) :
    goToUpper l = l := by
  induction l with
  | nil => rfl
  | cons c t ih =>
    simp only [List.all_cons, Bool.and_eq_true] at h
    simp [goToUpper, goToUpperChar_digit h.1]
    simpa [goToUpper] using ih h.2

lemma dropWhile_append_all {p : Char → Bool} {l r : List Char}
    (h : l.all p = true) : (l ++ r).dropWhile p = r.dropWhile p := by
  induction l with
  | nil => rfl
  | cons c t ih =>
    simp only [List.all_cons, Bool.and_eq_true] at h
    simp [List.dropWhile_cons, h.1, ih h.2]

lemma dropWhile_cons_neg {p : Char → Bool} {c : Char} {t : List Char}
    (h : p c = false) : (c :: t).dropWhile p = c :: t := by
  simp [List.dropWhile_cons, h]

lemma goTrimSpace_sandwich {w1 w2 core : List Char}
    (hw1 : w1.all goIsSpace = true) (hw2 : w2.all goIsSpace = true)
    (hh : ∃ c t, core = c :: t ∧ goIsSpace c = false)
    (hl : ∃ d t, core.reverse = d :: t ∧ goIsSpace d = false) :
    goTrimSpace (w1 ++ core ++ w2) = core := by
  obtain ⟨c, t, hct, hc⟩ := hh
  obtain ⟨d, t', hdt, hd⟩ := hl
  have h1 : (w1 ++ core ++ w2).dropWhile goIsSpace = core ++ w2 := by
    rw [List.append_assoc, dropWhile_append_all hw1, hct, List.cons_append,
      dropWhile_cons_neg hc, ← List.cons_append, ← hct]
  have hw2r : w2.reverse.all goIsSpace = true := by
    rw [List.all_reverse]; exact hw2
  unfold goTrimSpace
  rw [h1, List.reverse_append, dropWhile_append_all hw2r, hdt,
    dropWhile_cons_neg hd, ← hdt, List.reverse_reverse]

lemma goHasSuf_append (a b : List Char) : goHasSuf (a ++ b) b = true := by
  unfold goHasSuf
  simp [List.length_append, List.drop_left]

lemma goDropSuf_append (a b : List Char) : goDropSuf (a ++ b) b = a := by
  unfold goDropSuf
  simp [List.length_append, List.take_left]

lemma goHasSuf_two_ne (a : List Char) (x y u v : Char)
    (hne : ¬(x = u ∧ y = v)) : goHasSuf (a ++ [x, y]) [u, v] = false := by
  unfold goHasSuf
  have hdrop : (a ++ [x, y]).drop ((a ++ [x, y]).length - 2) = [x, y] := by
    have h2 : (a ++ [x, y]).length - 2 = a.length := by
      simp [List.length_append]
    rw [h2, List.drop_left]
  rw [show ([u, v] : List Char).length = 2 from rfl, hdrop,
    beq_eq_false_iff_ne]
  intro heq
  cases heq
  exact hne ⟨rfl, rfl⟩

lemma goHasSuf_not_mem (D : List Char) (u v : Char) (hv : v ∉ D) :
    goHasSuf D [u, v] = false := by
  cases hgo : goHasSuf D [u, v] with
  | false => rfl
  | true =>
    exfalso
    unfold goHasSuf at hgo
    have hdrop := beq_iff_eq.mp hgo
    apply hv
    have : v ∈ D.drop (D.length - [u, v].length) := by rw [hdrop]; simp
    exact List.mem_of_mem_drop this

lemma goToUpper_append (a b : List Char) :
    goToUpper (a ++ b) = goToUpper a ++ goToUpper b := by
  simp [goToUpper]

lemma int64Wrap_eq_self {x : Int} (h1 : -(2 ^ 63) ≤ x) (h2 : x < 2 ^ 63) :
    int64Wrap x = x := by
  unfold int64Wrap; omega

lemma parseInt64_digits {digits : List Char} {n : Nat} (hne : digits ≠ [])
    (hall : digits.all isDigitChar = true) (hv : digitsToNat digits = n)
    (hr : (n : Int) < 2 ^ 63) : parseInt64 digits = some (n : Int) := by
  subst hv
  obtain ⟨c, t, rfl⟩ : ∃ c t, digits = c :: t := by
    cases digits with
    | nil => exact absurd rfl hne
    | cons c t => exact ⟨c, t, rfl⟩
  have hc : isDigitChar c = true := by
    simp only [List.all_cons, Bool.and_eq_true] at hall
    exact hall.1
  have hcd : ¬((c :: t).head? = some '-') := by
    simp [ne_dash_of_digit hc]
  have hcp : ¬((c :: t).head? = some '-' ∨ (c :: t).head? = some '+') := by
    simp [ne_dash_of_digit hc, ne_plus_of_digit hc]
  simp only [parseInt64, if_neg hcd, if_neg hcp]
  rw [if_pos ⟨List.cons_ne_nil c t, hall⟩, one_mul,
    if_pos ⟨by omega, hr⟩]

lemma parseInt64_plus_digits {digits : List Char} {n : Nat} (hne : digits ≠ [])
    (hall : digits.all isDigitChar = true) (hv : digitsToNat digits = n)
    (hr : (n : Int) < 2 ^ 63) : parseInt64 ('+' :: digits) = some (n : Int) := by
  subst hv
  have hcd : ¬(('+' :: digits).head? = some '-') := by simp
  have hcp : ('+' :: digits).head? = some '-' ∨ ('+' :: digits).head? = some '+' := by
    simp
  simp only [parseInt64, if_neg hcd, if_pos hcp, List.tail_cons]
  rw [if_pos ⟨hne, hall⟩, one_mul, if_pos ⟨by omega, hr⟩]

lemma parseInt64_dash_digits {digits : List Char} {n : Nat} (hne : digits ≠ [])
    (hall : digits.all isDigitChar = true) (hv : digitsToNat digits = n)
    (hr : (n : Int) ≤ 2 ^ 63) : parseInt64 ('-' :: digits) = some (-(n : Int)) := by
  subst hv
  have hcd : ('-' :: digits).head? = some '-' := by simp
  have hcp : ('-' :: digits).head? = some '-' ∨ ('-' :: digits).head? = some '+' :=
    Or.inl hcd
  simp only [parseInt64, if_pos hcd, if_pos hcp, List.tail_cons]
  rw [if_pos ⟨hne, hall⟩, neg_one_mul, if_pos ⟨by omega, by omega⟩]

lemma parseInt64_signed (signChars digits : List Char) (sign : Int) (n : Nat)
    (hsign : (signChars = [] ∧ sign = 1) ∨ (signChars = ['+'] ∧ sign = 1) ∨
             (signChars = ['-'] ∧ sign = -1))
    (hne : digits ≠ []) (hall : digits.all isDigitChar = true)
    (hv : digitsToNat digits = n)
    (hn1 : -(2 ^ 63) ≤ sign * (n : Int)) (hn2 : sign * (n : Int) < 2 ^ 63) :
    parseInt64 (signChars ++ digits) = some (sign * n) := by
  rcases hsign with ⟨rfl, rfl⟩ | ⟨rfl, rfl⟩ | ⟨rfl, rfl⟩
  · rw [List.nil_append,
      parseInt64_digits hne hall hv (by rw [one_mul] at hn2; exact hn2), one_mul]
  · rw [List.cons_append, List.nil_append,
      parseInt64_plus_digits hne hall hv (by rw [one_mul] at hn2; exact hn2), one_mul]
  · rw [List.cons_append, List.nil_append,
      parseInt64_dash_digits hne hall hv (by rw [neg_mul, one_mul] at hn1; omega),
      neg_mul, one_mul]

lemma stripSizeSuf_kb (A : List Char) : stripSizeSuf (A ++ kbChars) = (1024, A) := by
  unfold stripSizeSuf
  rw [if_pos (goHasSuf_append A kbChars), goDropSuf_append]

lemma stripSizeSuf_mb (A : List Char) :
    stripSizeSuf (A ++ mbChars) = (1024 * 1024, A) := by
  have h1 : ¬(goHasSuf (A ++ mbChars) kbChars = true) := by
    simp only [mbChars, kbChars]
    rw [goHasSuf_two_ne A 'M' 'B' 'K' 'B' (by decide)]
    simp
  unfold stripSizeSuf
  rw [if_neg h1, if_pos (goHasSuf_append A mbChars), goDropSuf_append]

lemma stripSizeSuf_gb (A : List Char) :
    stripSizeSuf (A ++ gbChars) = (1024 * 1024 * 1024, A) := by
  have h1 : ¬(goHasSuf (A ++ gbChars) kbChars = true) := by
    simp only [gbChars, kbChars]
    rw [goHasSuf_two_ne A 'G' 'B' 'K' 'B' (by decide)]
    simp
  have h2 : ¬(goHasSuf (A ++ gbChars) mbChars = true) := by
    simp only [gbChars, mbChars]
    rw [goHasSuf_two_ne A 'G' 'B' 'M' 'B' (by decide)]
    simp
  unfold stripSizeSuf
  rw [if_neg h1, if_neg h2, if_pos (goHasSuf_append A gbChars), goDropSuf_append]

lemma stripSizeSuf_plain (A : List Char) (hB : 'B' ∉ A) :
    stripSizeSuf A = (1, A) := by
  have h1 : ¬(goHasSuf A kbChars = true) := by
    simp only [kbChars]
    rw [goHasSuf_not_mem A 'K' 'B' hB]
    simp
  have h2 : ¬(goHasSuf A mbChars = true) := by
    simp only [mbChars]
    rw [goHasSuf_not_mem A 'M' 'B' hB]
    simp
  have h3 : ¬(goHasSuf A gbChars = true) := by
    simp only [gbChars]
    rw [goHasSuf_not_mem A 'G' 'B' hB]
    simp
  unfold stripSizeSuf
  rw [if_neg h1, if_neg h2, if_neg h3]

lemma parseSize_strip_eval (raw A : List Char) (mult pv : Int)
    (hstrip : stripSizeSuf (goToUpper (goTrimSpace raw)) = (mult, A))
    (hparse : parseInt64 A = some pv)
    (hb1 : -(2 ^ 63) ≤ pv * mult) (hb2 : pv * mult < 2 ^ 63) :
    parseSize raw = some (pv * mult) := by
  simp only [parseSize, hstrip, hparse, Option.map_some']
  rw [int64Wrap_eq_self hb1 hb2]

/-- Complete evaluation of `parseSize` on a well-formed size string:
optional surrounding whitespace, an optional sign, a digit run, and an
optional size suffix in any letter case. -/
lemma parseSize_eval (w1 w2 signChars digits suf : List Char) (sign mult : Int)
    (n : Nat)
    (hw1 : w1.all goIsSpace = true) (hw2 : w2.all goIsSpace = true)
    (hsign : (signChars = [] ∧ sign = 1) ∨ (signChars = ['+'] ∧ sign = 1) ∨
             (signChars = ['-'] ∧ sign = -1))
    (hne : digits ≠ []) (hall : digits.all isDigitChar = true)
    (hv : digitsToNat digits = n)
    (hsuf : (suf, mult) ∈ sizeSufVariants)
    (hn1 : -(2 ^ 63) ≤ sign * (n : Int)) (hn2 : sign * (n : Int) < 2 ^ 63)
    (hp1 : -(2 ^ 63) ≤ sign * (n : Int) * mult)
    (hp2 : sign * (n : Int) * mult < 2 ^ 63) :
    parseSize (w1 ++ (signChars ++ digits ++ suf) ++ w2) =
      some (sign * (n : Int) * mult) := by
  have hgen : ∀ q ∈ sizeSufVariants,
      (q.1 = [] ∧ q.2 = 1) ∨
      (q.1 ≠ [] ∧ q.1.all (fun c => !(goIsSpace c)) = true ∧
        ((goToUpper q.1 = kbChars ∧ q.2 = 1024) ∨
         (goToUpper q.1 = mbChars ∧ q.2 = 1024 * 1024) ∨
         (goToUpper q.1 = gbChars ∧ q.2 = 1024 * 1024 * 1024))) := by decide
  have hsufFacts :
      (suf = [] ∧ mult = 1) ∨
      (suf ≠ [] ∧ suf.all (fun c => !(goIsSpace c)) = true ∧
        ((goToUpper suf = kbChars ∧ mult = 1024) ∨
         (goToUpper suf = mbChars ∧ mult = 1024 * 1024) ∨
         (goToUpper suf = gbChars ∧ mult = 1024 * 1024 * 1024))) :=
    hgen (suf, mult) hsuf
  obtain ⟨d0, dt, hdigits⟩ : ∃ c t, digits = c :: t := by
    cases digits with
    | nil => exact absurd rfl hne
    | cons c t => exact ⟨c, t, rfl⟩
  have hd0 : isDigitChar d0 = true := by
    rw [hdigits] at hall
    simp only [List.all_cons, Bool.and_eq_true] at hall
    exact hall.1
  have hhead : ∃ c t, signChars ++ digits ++ suf = c :: t ∧ goIsSpace c = false := by
    rcases hsign with ⟨rfl, -⟩ | ⟨rfl, -⟩ | ⟨rfl, -⟩
    · exact ⟨d0, dt ++ suf, by simp [hdigits], goIsSpace_of_digit hd0⟩
    · exact ⟨'+', digits ++ suf, by simp, by decide⟩
    · exact ⟨'-', digits ++ suf, by simp, by decide⟩
  have hlastD : ∃ d' t', digits = t' ++ [d'] ∧ isDigitChar d' = true := by
    rcases digits.eq_nil_or_concat with h | ⟨t', d', h⟩
    · exact absurd h hne
    · rw [List.concat_eq_append] at h
      refine ⟨d', t', h, ?_⟩
      have hmem : d' ∈ digits := by rw [h]; simp
      exact List.all_eq_true.mp hall _ hmem
  have hlast : ∃ d t, (signChars ++ digits ++ suf).reverse = d :: t ∧
      goIsSpace d = false := by
    rcases hsufFacts with ⟨rfl, -⟩ | ⟨hsne, hsall, -⟩
    · obtain ⟨d', t', hdd, hd'⟩ := hlastD
      refine ⟨d', t'.reverse ++ signChars.reverse, ?_, goIsSpace_of_digit hd'⟩
      rw [hdd]
      simp
    · rcases suf.eq_nil_or_concat with h | ⟨s', d', h⟩
      · exact absurd h hsne
      · rw [List.concat_eq_append] at h
        have hd' : goIsSpace d' = false := by
          have hmem : d' ∈ suf := by rw [h]; simp
          have := List.all_eq_true.mp hsall _ hmem
          simpa using this
        refine ⟨d', s'.reverse ++ (digits.reverse ++ signChars.reverse), ?_, hd'⟩
        rw [h]
        simp
  have htrim : goTrimSpace (w1 ++ (signChars ++ digits ++ suf) ++ w2) =
      signChars ++ digits ++ suf :=
    goTrimSpace_sandwich hw1 hw2 hhead hlast
  have hupperSign : goToUpper signChars = signChars := by
    rcases hsign with ⟨rfl, -⟩ | ⟨rfl, -⟩ | ⟨rfl, -⟩ <;> decide
  have hupper : goToUpper (signChars ++ digits ++ suf) =
      (signChars ++ digits) ++ goToUpper suf := by
    rw [goToUpper_append, goToUpper_append, hupperSign, goToUpper_digits hall]
  have hparse : parseInt64 (signChars ++ digits) = some (sign * (n : Int)) :=
    parseInt64_signed signChars digits sign n hsign hne hall hv hn1 hn2
  rcases hsufFacts with ⟨hsufEq, hmult⟩ | ⟨-, -, hcase⟩
  · subst hmult
    have hstrip : stripSizeSuf (goToUpper (goTrimSpace
        (w1 ++ (signChars ++ digits ++ suf) ++ w2))) = (1, signChars ++ digits) := by
      rw [htrim, hupper, hsufEq]
      have hB : 'B' ∉ signChars ++ digits := by
        intro hmem
        rcases List.mem_append.mp hmem with h | h
        · rcases hsign with ⟨rfl, -⟩ | ⟨rfl, -⟩ | ⟨rfl, -⟩ <;> revert h <;> decide
        · have := List.all_eq_true.mp hall _ h
          revert this; decide
      simpa [goToUpper] using stripSizeSuf_plain _ hB
    rw [mul_one]
    have := parseSize_strip_eval _ _ 1 (sign * (n : Int)) hstrip hparse
      (by rw [mul_one]; exact hn1) (by rw [mul_one]; exact hn2)
    rw [mul_one] at this
    exact this
  · rcases hcase with ⟨hup, hmult⟩ | ⟨hup, hmult⟩ | ⟨hup, hmult⟩ <;> subst hmult
    · have hstrip : stripSizeSuf (goToUpper (goTrimSpace
          (w1 ++ (signChars ++ digits ++ suf) ++ w2))) =
          (1024, signChars ++ digits) := by
        rw [htrim, hupper, hup]
        exact stripSizeSuf_kb _
      exact parseSize_strip_eval _ _ 1024 (sign * (n : Int)) hstrip hparse hp1 hp2
    · have hstrip : stripSizeSuf (goToUpper (goTrimSpace
          (w1 ++ (signChars ++ digits ++ suf) ++ w2))) =
          (1024 * 1024, signChars ++ digits) := by
        rw [htrim, hupper, hup]
        exact stripSizeSuf_mb _
      exact parseSize_strip_eval _ _ (1024 * 1024) (sign * (n : Int)) hstrip hparse
        hp1 hp2
    · have hstrip : stripSizeSuf (goToUpper (goTrimSpace
          (w1 ++ (signChars ++ digits ++ suf) ++ w2))) =
          (1024 * 1024 * 1024, signChars ++ digits) := by
        rw [htrim, hupper, hup]
        exact stripSizeSuf_gb _
      exact parseSize_strip_eval _ _ (1024 * 1024 * 1024) (sign * (n : Int)) hstrip
        hparse hp1 hp2

lemma sumSizes_cons (e : CacheEntry) (es : List CacheEntry) :
    sumSizes (e :: es) = e.size + sumSizes es := by
  simp [sumSizes]

lemma sumSizes_evictAsc_le (need : Nat) (es : List CacheEntry)
    (h : ∀ e ∈ es, e.pinned = false) : sumSizes (evictAsc need es) ≤ need := by
  induction es generalizing need with
  | nil => simp [evictAsc, sumSizes]
  | cons e rest ih =>
    by_cases hle : sumSizes (e :: rest) ≤ need
    · rw [evictAsc, if_pos hle]
      exact hle
    · have hp : e.pinned = false := h e (List.mem_cons_self e rest)
      rw [evictAsc, if_neg hle, hp]
      simp only [Bool.false_eq_true, if_false]
      exact ih need (fun x hx => h x (List.mem_cons_of_mem e hx))

lemma sumSizes_insertByScore (e : CacheEntry) (es : List CacheEntry) :
    sumSizes (insertByScore e es) = e.size + sumSizes es := by
  induction es with
  | nil => simp [insertByScore, sumSizes]
  | cons x xs ih =>
    rw [insertByScore]
    split
    · rfl
    · rw [sumSizes_cons, ih, sumSizes_cons]
      omega

lemma sumSizes_filter_le (p : CacheEntry → Bool) (es : List CacheEntry) :
    sumSizes (es.filter p) ≤ sumSizes es := by
  induction es with
  | nil => simp [sumSizes]
  | cons x xs ih =>
    rw [List.filter_cons]
    split
    · rw [sumSizes_cons, sumSizes_cons]
      omega
    · rw [sumSizes_cons]
      omega

lemma submitN_closed (cfg : SchedCfg) (n : Nat) : ∀ t : Nat,
    submitN cfg n
      ⟨min t cfg.parallelOps, min (t - cfg.parallelOps) cfg.queueBound⟩ =
      ((t + n) - (cfg.parallelOps + cfg.queueBound) -
         (t - (cfg.parallelOps + cfg.queueBound)),
       ⟨min (t + n) cfg.parallelOps,
        min (t + n - cfg.parallelOps) cfg.queueBound⟩) := by
  induction n with
  | zero =>
    intro t
    simp [submitN]
  | succ n ih =>
    intro t
    rcases Nat.lt_or_ge t cfg.parallelOps with h1 | h1
    · have hcond : min t cfg.parallelOps < cfg.parallelOps := by omega
      have e : ({ running := min t cfg.parallelOps + 1,
                  queued := min (t - cfg.parallelOps) cfg.queueBound } : SchedState) =
          ⟨min (t + 1) cfg.parallelOps, min (t + 1 - cfg.parallelOps) cfg.queueBound⟩ := by
        simp only [SchedState.mk.injEq]
        omega
      simp only [submitN, submit, if_pos hcond]
      rw [e, ih (t + 1)]
      simp only [Prod.mk.injEq, SchedState.mk.injEq]
      refine ⟨by simp; omega, by omega, by omega⟩
    · rcases Nat.lt_or_ge t (cfg.parallelOps + cfg.queueBound) with h2 | h2
      · have hc1 : ¬(min t cfg.parallelOps < cfg.parallelOps) := by omega
        have hc2 : min (t - cfg.parallelOps) cfg.queueBound < cfg.queueBound := by
          omega
        have e : ({ running := min t cfg.parallelOps,
                    queued := min (t - cfg.parallelOps) cfg.queueBound + 1 } : SchedState) =
            ⟨min (t + 1) cfg.parallelOps,
             min (t + 1 - cfg.parallelOps) cfg.queueBound⟩ := by
          simp only [SchedState.mk.injEq]
          omega
        simp only [submitN, submit, if_neg hc1, if_pos hc2]
        rw [e, ih (t + 1)]
        simp only [Prod.mk.injEq, SchedState.mk.injEq]
        refine ⟨by simp; omega, by omega, by omega⟩
      · have hc1 : ¬(min t cfg.parallelOps < cfg.parallelOps) := by omega
        have hc2 : ¬(min (t - cfg.parallelOps) cfg.queueBound < cfg.queueBound) := by
          omega
        have e : ({ running := min t cfg.parallelOps,
                    queued := min (t - cfg.parallelOps) cfg.queueBound } : SchedState) =
            ⟨min (t + 1) cfg.parallelOps,
             min (t + 1 - cfg.parallelOps) cfg.queueBound⟩ := by
          simp only [SchedState.mk.injEq]
          omega
        simp only [submitN, submit, if_neg hc1, if_neg hc2]
        rw [e, ih (t + 1)]
        simp only [Prod.mk.injEq, SchedState.mk.injEq]
        refine ⟨by simp; omega, by omega, by omega⟩

lemma one_le_mult_of_variant {s : List Char} {m : Int}
    (h : (s, m) ∈ sizeSufVariants) : 1 ≤ m := by
  have hall : ∀ q ∈ sizeSufVariants, 1 ≤ q.2 := by decide
  exact hall (s, m) h

/-- C6 (amended): for every string made of optional surrounding whitespace,
a non-negative decimal integer `n`, and an optional `KB`/`MB`/`GB` suffix in
any letter case, provided `n * multiplier` fits a signed 64-bit integer,
`parseSize` succeeds and returns `n` times 1024, 1024², or 1024³ (or `n`
itself with no suffix); whenever the remainder after suffix stripping fails
signed 64-bit decimal parsing, `parseSize` returns an error; and the parsed
byte values are exactly what `main` stores as the cache size limit and the
binary threshold at startup. -/
theorem parseSize_sized_string (w1 w2 digits suf : List Char) (mult : Int)
    (n : Nat)
    (hw1 : w1.all goIsSpace = true) (hw2 : w2.all goIsSpace = true)
    (hne : digits ≠ []) (hall : digits.all isDigitChar = true)
    (hv : digitsToNat digits = n) (hsuf : (suf, mult) ∈ sizeSufVariants)
    (hp2 : (n : Int) * mult < 2 ^ 63) :
    parseSize (w1 ++ digits ++ suf ++ w2) = some ((n : Int) * mult) ∧
    (∀ s : List Char,
      parseInt64 (stripSizeSuf (goToUpper (goTrimSpace s))).2 = none →
      parseSize s = none) ∧
    (∀ cs bt p va dm ll cfg v w, parseSize cs = some v → parseSize bt = some w →
      mainApplyFlags cs bt p va dm ll cfg =
        some { cfg with
                CacheSize := v
                BinaryThreshold := w
                ParallelOps := p
                VSCodeAPIEnabled := va
                DebugMode := dm
                LogLevel := ll }) := by
  have hm : 1 ≤ mult := one_le_mult_of_variant hsuf
  have hn0 : (0 : Int) ≤ (n : Int) := by positivity
  have hnm : (n : Int) ≤ (n : Int) * mult := by nlinarith
  have hprod0 : (0 : Int) ≤ (n : Int) * mult := by nlinarith
  refine ⟨?_, ?_, ?_⟩
  · have h := parseSize_eval w1 w2 [] digits suf 1 mult n hw1 hw2
      (Or.inl ⟨rfl, rfl⟩) hne hall hv hsuf (by omega)
      (by rw [one_mul]; linarith) (by rw [one_mul]; linarith)
      (by rw [one_mul]; exact hp2)
    rw [one_mul] at h
    simpa [List.append_assoc] using h
  · intro s hnone
    simp only [parseSize, hnone, Option.map_none']
  · intro cs bt p va dm ll cfg v w hcs hbt
    simp [mainApplyFlags, hcs, hbt]

theorem parseSize_sized_string_witness :
    parseSize ([' '] ++ ['5', '0'] ++ ['m', 'b'] ++ []) = some 52428800 := by
  have h := (parseSize_sized_string [' '] [] ['5', '0'] ['m', 'b'] (1024 * 1024)
    50 (by decide) (by decide) (by decide) (by decide) (by decide) (by decide)
    (by decide)).1
  norm_num at h
  exact h

/-- C6 counterexample: the string `"18446744073709551616"` consists of no
whitespace, a non-negative decimal integer, and no suffix — the shape the
claim covers — yet `parseSize` returns an error rather than the integer,
because the numeral exceeds the signed 64-bit range of
`strconv.ParseInt`. -/
theorem parseSize_claim_cex :
    ("18446744073709551616".toList).all isDigitChar = true ∧
    digitsToNat ("18446744073709551616".toList) = 18446744073709551616 ∧
    parseSize ("18446744073709551616".toList) = none := by decide

/-- C7: for every CPU count `c ≥ 1`, `DefaultConfiguration` derives
`ParallelOps = min (2*c) 16`, a 100 MiB default cache size, and a 1 MiB
default binary threshold. -/
theorem defaultConfiguration_derived (c : Int) (h : 1 ≤ c) :
    (DefaultConfiguration c).ParallelOps = min (2 * c) 16 ∧
    (DefaultConfiguration c).CacheSize = 100 * 1024 * 1024 ∧
    (DefaultConfiguration c).BinaryThreshold = 1024 * 1024 := by
  refine ⟨?_, rfl, rfl⟩
  simp only [DefaultConfiguration]
  split <;> omega

theorem defaultConfiguration_derived_witness :
    (1 : Int) ≤ 4 ∧ (DefaultConfiguration 4).ParallelOps = 8 := by
  have h := (defaultConfiguration_derived 4 (by norm_num)).1
  refine ⟨by norm_num, ?_⟩
  rw [h]
  decide

/-- C8 (code evidence): `main` registers no `allowed-dirs` flag — the
complete flag list is the eight flags below — and the startup path runs to
completion on the default flag values with no allowed-directory
configuration anywhere: `Configuration` has no such field and nothing
fails. -/
theorem allowedDirs_not_consumed :
    ("allowed-dirs".toList ∉ mainFlagNames) ∧
    mainApplyFlags ("100MB".toList) ("1MB".toList) 8 true false ("info".toList)
      (DefaultConfiguration 4) =
      some { CacheSize := 100 * 1024 * 1024, ParallelOps := 8,
             BinaryThreshold := 1024 * 1024, VSCodeAPIEnabled := true,
             DebugMode := false, LogLevel := "info".toList } := by decide

/-- C9: `parseSize` accepts negative magnitudes — a leading `-` on the
digits, with or without a size suffix, parses to a negative byte count —
`parseSize` errors exactly when the numeric remainder fails signed 64-bit
parsing, and `main` stores whatever values come back (negative or zero
included) without any rejection. -/
theorem parseSize_negative_accepted (digits suf : List Char) (mult : Int)
    (n : Nat)
    (hne : digits ≠ []) (hall : digits.all isDigitChar = true)
    (hv : digitsToNat digits = n) (hsuf : (suf, mult) ∈ sizeSufVariants)
    (hr : (n : Int) * mult ≤ 2 ^ 63) :
    parseSize ('-' :: (digits ++ suf)) = some (-((n : Int) * mult)) ∧
    (∀ s : List Char, parseSize s = none ↔
      parseInt64 (stripSizeSuf (goToUpper (goTrimSpace s))).2 = none) ∧
    (∀ cs bt p va dm ll cfg v w, parseSize cs = some v → parseSize bt = some w →
      mainApplyFlags cs bt p va dm ll cfg =
        some { cfg with
                CacheSize := v
                BinaryThreshold := w
                ParallelOps := p
                VSCodeAPIEnabled := va
                DebugMode := dm
                LogLevel := ll }) := by
  have hm : 1 ≤ mult := one_le_mult_of_variant hsuf
  have hn0 : (0 : Int) ≤ (n : Int) := by positivity
  have hnm : (n : Int) ≤ (n : Int) * mult := by nlinarith
  have hprod0 : (0 : Int) ≤ (n : Int) * mult := by nlinarith
  refine ⟨?_, ?_, ?_⟩
  · have h := parseSize_eval [] [] ['-'] digits suf (-1) mult n (by decide)
      (by decide) (Or.inr (Or.inr ⟨rfl, rfl⟩)) hne hall hv hsuf
      (by rw [neg_mul, one_mul]; linarith) (by rw [neg_mul, one_mul]; linarith)
      (by rw [neg_mul, one_mul, neg_mul]; linarith)
      (by rw [neg_mul, one_mul, neg_mul]; linarith)
    rw [neg_mul, one_mul, neg_mul] at h
    simpa using h
  · intro s
    simp only [parseSize]
    cases h : parseInt64 (stripSizeSuf (goToUpper (goTrimSpace s))).2 <;> simp [h]
  · intro cs bt p va dm ll cfg v w hcs hbt
    simp [mainApplyFlags, hcs, hbt]

theorem parseSize_negative_accepted_witness :
    parseSize ("-5MB".toList) = some (-5242880) ∧
    mainApplyFlags ("-5MB".toList) ("-1KB".toList) 4 true false ("info".toList)
      (DefaultConfiguration 4) =
      some { DefaultConfiguration 4 with
             CacheSize := -5242880, BinaryThreshold := -1024, ParallelOps := 4,
             VSCodeAPIEnabled := true, DebugMode := false,
             LogLevel := "info".toList } := by
  have h := parseSize_negative_accepted ['5'] ['M', 'B'] (1024 * 1024) 5
    (by decide) (by decide) (by decide) (by decide) (by decide)
  have e : "-5MB".toList = '-' :: (['5'] ++ ['M', 'B']) := by decide
  have h1 := h.1
  rw [← e] at h1
  norm_num at h1
  exact ⟨h1, h.2.2 _ _ 4 true false _ _ _ _ h1 (by decide)⟩

/-- C1: at every quiescent point between cache operations (no write in
flight, so nothing is pinned), `get`/`put`/`invalidate` preserve
`sum(entry.size) ≤ capacity`, and a `put` of an entry larger than the
capacity never populates the cache: the state is returned unchanged (the
read bypasses the cache). -/
theorem cache_capacity_invariant (s : CacheState) (e : CacheEntry) (i : Nat)
    (b : Bool) (hinv : cacheInv s) (hnp : noPinned s) :
    cacheInv (put s e) ∧
    (s.capacity < e.size → put s e = s) ∧
    cacheInv (invalidate s i) ∧
    cacheInv (cacheGet s i b).2 := by
  have hput : cacheInv (put s e) := by
    unfold put
    split
    · exact hinv
    · rename_i hfits
      unfold cacheInv totalBytes at *
      simp only
      rw [sumSizes_insertByScore]
      have hev := sumSizes_evictAsc_le (s.capacity - e.size) s.entries hnp
      omega
  have hinval : cacheInv (invalidate s i) := by
    unfold cacheInv totalBytes invalidate at *
    simp only
    have := sumSizes_filter_le (fun e => e.id ≠ i) s.entries
    omega
  refine ⟨hput, ?_, hinval, ?_⟩
  · intro hbig
    unfold put
    rw [if_pos hbig]
  · unfold cacheGet
    cases s.entries.find? (fun e => e.id = i) with
    | none => exact hinv
    | some x =>
      cases b with
      | false => exact hinv
      | true => simpa using hinval

theorem cache_capacity_invariant_witness :
    cacheInv ⟨[⟨1, 10, 5, false⟩], 100⟩ ∧
    noPinned ⟨[⟨1, 10, 5, false⟩], 100⟩ ∧
    cacheInv (put ⟨[⟨1, 10, 5, false⟩], 100⟩ ⟨2, 95, 1, false⟩) ∧
    (put ⟨[⟨1, 10, 5, false⟩], 100⟩ ⟨3, 101, 9, false⟩ =
      ⟨[⟨1, 10, 5, false⟩], 100⟩) := by
  have hinv : cacheInv ⟨[⟨1, 10, 5, false⟩], 100⟩ := by
    unfold cacheInv totalBytes sumSizes
    decide
  have hnp : noPinned ⟨[⟨1, 10, 5, false⟩], 100⟩ := by
    intro e he
    rw [List.mem_singleton.mp he]
  have h1 := cache_capacity_invariant ⟨[⟨1, 10, 5, false⟩], 100⟩
    ⟨2, 95, 1, false⟩ 1 true hinv hnp
  have h2 := cache_capacity_invariant ⟨[⟨1, 10, 5, false⟩], 100⟩
    ⟨3, 101, 9, false⟩ 1 true hinv hnp
  exact ⟨hinv, hnp, h1.1, h2.2.1 (by decide)⟩

/-- C2: for every path `p`, `resolve` succeeds — returning exactly the
canonical path — if and only if the canonicalized `p` is a descendant of
one of the configured allowed directories; every failure (in particular
every escaping traversal) is `AccessDenied`; and `resolve` is a pure
function of its arguments (no side effects by construction). -/
theorem pathGuard_resolve_spec (allowed : List (List String)) (p : List String) :
    ((∃ c, resolve allowed p = .ok c) ↔
      allowed.any (fun a => isWithin a (canonicalize p)) = true) ∧
    (∀ c, resolve allowed p = .ok c → c = canonicalize p) ∧
    (∀ err, resolve allowed p = .error err → err = .AccessDenied) := by
  by_cases h : allowed.any (fun a => isWithin a (canonicalize p)) = true
  · simp only [resolve, if_pos h]
    refine ⟨⟨fun _ => h, fun _ => ⟨_, rfl⟩⟩, ?_, ?_⟩
    · intro c hc
      injection hc with hc
      exact hc.symm
    · intro err herr
      simp at herr
  · simp only [resolve, if_neg h]
    refine ⟨⟨?_, fun hh => absurd hh h⟩, ?_, ?_⟩
    · rintro ⟨c, hc⟩
      simp at hc
    · intro c hc
      simp at hc
    · intro err herr
      injection herr with herr
      exact herr.symm

theorem pathGuard_resolve_spec_witness :
    resolve [["home", "user"]] ["home", "user", "..", "..", "etc", "passwd"] =
      .error .AccessDenied ∧
    canonicalize ["home", "user", "..", "..", "etc", "passwd"] =
      ["etc", "passwd"] ∧
    resolve [["home", "user"]] ["home", "user", "docs"] =
      .ok ["home", "user", "docs"] := by
  have h := pathGuard_resolve_spec [["home", "user"]]
    ["home", "user", "..", "..", "etc", "passwd"]
  refine ⟨?_, by rfl, by rfl⟩
  cases hres : resolve [["home", "user"]]
      ["home", "user", "..", "..", "etc", "passwd"] with
  | ok c =>
    exact absurd (h.1.mp ⟨c, hres⟩) (by decide)
  | error err =>
    rw [h.2.2 err hres]

/-- C3: in every `writeSafe` run in which a protocol step after writing
the temporary sibling fails — the fallible post-temp steps being the
backup copy (3) and the atomic rename (4) — an error is returned, the
original file is byte-for-byte unchanged, the temporary file is discarded,
and a backup already created before the failure is retained. -/
theorem safeWriter_failure_atomicity (st : WriteFs) (content : List Nat)
    (backup : Bool) (k : Nat) (hk : k = 3 ∨ k = 4) :
    (writeSafe st content backup (some k)).1 = false ∧
    (writeSafe st content backup (some k)).2.orig = st.orig ∧
    (writeSafe st content backup (some k)).2.temp = none ∧
    (writeSafe st content backup (some k)).2.backup =
      (if k = 4 ∧ backup = true then st.orig else st.backup) := by
  rcases hk with rfl | rfl <;> cases backup <;>
    simp [writeSafe, runWriteSafe, writeStep, discardTemp]

theorem safeWriter_failure_atomicity_witness :
    ((4 : Nat) = 3 ∨ (4 : Nat) = 4) ∧
    (writeSafe ⟨some [1], none, none, false, true⟩ [2] true (some 4)).1 = false ∧
    (writeSafe ⟨some [1], none, none, false, true⟩ [2] true (some 4)).2.orig =
      some [1] ∧
    (writeSafe ⟨some [1], none, none, false, true⟩ [2] true (some 4)).2.backup =
      some [1] := by
  have h := safeWriter_failure_atomicity ⟨some [1], none, none, false, true⟩ [2]
    true 4 (Or.inr rfl)
  exact ⟨Or.inr rfl, h.1, h.2.1, by rw [h.2.2.2]; decide⟩

/-- C4: with all workers busy and the bounded queue full, `submit` fails
fast with `Overloaded` and changes nothing; and submitting `n` tasks from
an idle scheduler with no completions rejects exactly the excess over
`ParallelOps + queueBound` while the pending population stays at
`min n (ParallelOps + queueBound)`, never above the bound. -/
theorem scheduler_backpressure (cfg : SchedCfg) (s : SchedState) (n : Nat)
    (hsat : s.running = cfg.parallelOps) (hfull : s.queued = cfg.queueBound) :
    submit cfg s = (.overloaded, s) ∧
    (submitN cfg n ⟨0, 0⟩).1 = n - (cfg.parallelOps + cfg.queueBound) ∧
    pending (submitN cfg n ⟨0, 0⟩).2 = min n (cfg.parallelOps + cfg.queueBound) ∧
    pending (submitN cfg n ⟨0, 0⟩).2 ≤ cfg.parallelOps + cfg.queueBound := by
  have hsub : submit cfg s = (.overloaded, s) := by
    unfold submit
    rw [if_neg (by omega), if_neg (by omega)]
  have hz : (⟨0, 0⟩ : SchedState) =
      ⟨min 0 cfg.parallelOps, min (0 - cfg.parallelOps) cfg.queueBound⟩ := by
    simp
  rw [hz]
  have h := submitN_closed cfg n 0
  rw [h]
  unfold pending
  simp only
  refine ⟨hsub, by omega, by omega, by omega⟩

theorem scheduler_backpressure_witness :
    ((⟨2, 3⟩ : SchedState).running = (⟨2, 3⟩ : SchedCfg).parallelOps) ∧
    ((⟨2, 3⟩ : SchedState).queued = (⟨2, 3⟩ : SchedCfg).queueBound) ∧
    submit ⟨2, 3⟩ ⟨2, 3⟩ = (.overloaded, ⟨2, 3⟩) ∧
    (submitN ⟨2, 3⟩ 7 ⟨0, 0⟩).1 = 2 ∧
    pending (submitN ⟨2, 3⟩ 7 ⟨0, 0⟩).2 = 5 := by
  have h := scheduler_backpressure ⟨2, 3⟩ ⟨2, 3⟩ 7 rfl rfl
  exact ⟨rfl, rfl, h.1, by rw [h.2.1]; decide, by rw [h.2.2.1]; decide⟩

/-- C5: during a `writeSafe`, a read of the target started before the
rename observes, at every protocol instant `t`, either the complete
pre-write content or the complete post-write content — never a mixture —
because the target's content changes only at the atomic rename step. -/
theorem writeSafe_no_torn_reads (st : WriteFs) (backup : Bool)
    (content : List Nat) (t : Nat) (ht : t ≤ 6) :
    readTarget (stateAfter st backup content t) = st.orig ∨
    readTarget (stateAfter st backup content t) = some content := by
  interval_cases t <;> cases backup <;>
    simp [stateAfter, readTarget, writeStep]

theorem writeSafe_no_torn_reads_witness :
    ((4 : Nat) ≤ 6) ∧
    (readTarget (stateAfter ⟨some [7], none, none, false, true⟩ true [9] 4) =
        some [7] ∨
      readTarget (stateAfter ⟨some [7], none, none, false, true⟩ true [9] 4) =
        some [9]) :=
  ⟨by decide, writeSafe_no_torn_reads ⟨some [7], none, none, false, true⟩ true
    [9] 4 (by decide)⟩

/-- C10: `parseSize` multiplication overflows silently — on
`"9000000000GB"` the digits parse as a valid `int64`, and `parseSize`
returns, without error, the product reduced modulo 2⁶⁴ and read as a signed
64-bit integer: a negative number smaller than `n` itself. -/
theorem parseSize_overflow_wraps :
    parseInt64 ("9000000000".toList) = some 9000000000 ∧
    parseSize ("9000000000GB".toList) =
      some (int64Wrap (9000000000 * (1024 * 1024 * 1024))) ∧
    int64Wrap (9000000000 * (1024 * 1024 * 1024)) = -8783067657709551616 ∧
    (-8783067657709551616 : Int) < 0 ∧
    (-8783067657709551616 : Int) < 9000000000 := by decide

end FsUltra
